import Mathlib

/-!
Verification of the chunked audio transcription pipeline
(`audio_transcriber/transcriber.py`).

The development shallowly embeds the pipeline's pure data flow:
  * the chunk-cutting stage (`process_audio_file` for file input and the
    polling loop of `record_audio_chunk` for microphone input),
  * the reply-processing loop of `transcribe_audio` (speaker resolution,
    timestamp renormalisation, empty-segment dropping),
  * the chunk-file naming, sorting and timestamping of
    `transcribe_recorded_chunks`,
  * the audio preparation step (normalisation guard), and
  * the start-up cleanup of `record_audio_chunk`.

Machine samples are modelled as rationals (mic capture uses float32 in
[-1, 1]) or integers (16-bit PCM); times are rationals (Python floats in the
source); fallible operations are modelled by explicit outcome types.
-/

/- ### Constants (transcriber.py, lines 42-47) -/

/-- SAMPLE_RATE = 16000 Hz. -/
def SAMPLE_RATE : Nat := 16000

/-- CHUNK_DURATION = 30 seconds. -/
def CHUNK_DURATION : Nat := 30

/-- samples_per_chunk = SAMPLE_RATE * chunk_duration (record_audio_chunk,
line 190; chunk_duration is the local copy of the 30-second constant). -/
def samples_per_chunk : Nat := SAMPLE_RATE * CHUNK_DURATION

/- ### File-mode chunking (process_audio_file, lines 322-351)

`process_audio_file` slices the decoded audio with
`for i in range(0, len(audio), chunk_length_ms): yield audio[i:i+chunk_length_ms]`.
pydub slices by milliseconds; at the fixed 16 kHz mono rate one millisecond
is exactly 16 samples, so the slice at `chunk_length_ms = 30000` induces the
partition of the sample sequence into consecutive windows of
`samples_per_chunk = 480000` samples, the last window possibly shorter.
`chunksOf` is that partition. -/

/-- Consecutive windows of `csize` elements, last window possibly shorter:
the partition produced by `audio[i:i+csize] for i in range(0, len(audio), csize)`.
A zero step is a `ValueError` for Python `range`; the program only ever uses
`csize = 480000`, so the `0` case below is unreachable and returns `[]`. -/
def chunksOf {α : Type} : Nat → List α → List (List α)
  | _, [] => []
  | 0, _ :: _ => []
  | c + 1, x :: xs =>
      ((x :: xs).take (c + 1)) :: chunksOf (c + 1) ((x :: xs).drop (c + 1))
termination_by _ l => l.length
decreasing_by simp [List.length_drop]; omega

/-- The chunk stream yielded by `process_audio_file` (file mode), at sample
granularity.  Samples are 16-bit PCM values (`get_array_of_samples`). -/
def process_audio_file (audio : List Int) : List (List Int) :=
  chunksOf samples_per_chunk audio

/- ### Microphone-mode chunking (record_audio_chunk, lines 181-278)

The capture callback appends sample blocks to `audio_buffer`; the polling
loop (one pass per 0.1 s iteration) concatenates the buffer and, when at
least `samples_per_chunk` samples accumulated, cuts exactly that many into a
saved chunk, retaining the surplus.  On stop, whatever remains in the buffer
is flushed as one final chunk.  A run is modelled as a sequence of events:
`arrive blk` (the callback appends a block) and `poll` (one pass of the
`while` body after the stop check). -/

inductive MicEvent (α : Type) : Type
  | arrive (blk : List α)
  | poll

/-- Loop state: the pending sample buffer (concatenated) and the chunks
saved so far, in save order. -/
structure MicState (α : Type) : Type where
  buffer : List α
  chunks : List (List α)

/-- One event of the recording loop.  `arrive` models
`audio_buffer.append(indata.copy())`; `poll` models one pass of the body:
`audio_data = np.concatenate(audio_buffer)`, and if
`len(audio_data) >= samples_per_chunk` the first `samples_per_chunk` samples
are saved as a chunk and the remainder is kept (lines 227-252). -/
def micStep {α : Type} (spc : Nat) (s : MicState α) : MicEvent α → MicState α
  | .arrive blk => ⟨s.buffer ++ blk, s.chunks⟩
  | .poll =>
      if spc ≤ s.buffer.length then
        ⟨s.buffer.drop spc, s.chunks ++ [s.buffer.take spc]⟩
      else s

/-- State after a whole event schedule, starting from an empty buffer. -/
def micRunState {α : Type} (spc : Nat) (evs : List (MicEvent α)) : MicState α :=
  evs.foldl (micStep spc) ⟨[], []⟩

/-- The `finally` block (lines 262-277): if the buffer is non-empty, the
entire residue is saved as one final chunk, whatever its size. -/
def micFlush {α : Type} (s : MicState α) : List (List α) :=
  if s.buffer.isEmpty then s.chunks else s.chunks ++ [s.buffer]

/-- All chunks saved by a recording run. -/
def micRun {α : Type} (spc : Nat) (evs : List (MicEvent α)) : List (List α) :=
  micFlush (micRunState spc evs)

/-- The full input sample sequence of a schedule: the concatenation of all
arrived blocks. -/
def micInput {α : Type} (evs : List (MicEvent α)) : List α :=
  (evs.filterMap (fun e =>
    match e with
    | .arrive blk => some blk
    | .poll => none)).flatten

/- ### Reply processing (transcribe_audio, lines 60-179)

`transcribe_audio` posts the encoded chunk once and handles the reply.  The
network interaction is modelled as an outcome per call: a raised exception
(`exc`), or a response with a status code and one of the three recognised
body shapes.  Reply times are seconds (Python floats), modelled as
rationals. -/

/-- Python `str.strip()`: removes leading and trailing whitespace
(structurally, on the character list, so that it evaluates; Python also
strips \x0b/\x0c, which never occur in the claims' inputs). -/
def pyStrip (s : String) : String :=
  ⟨((s.data.dropWhile Char.isWhitespace).reverse.dropWhile Char.isWhitespace).reverse⟩

/-- One reply segment of a verbose-json response.  Every field is optional:
the loop reads them with `segment.get(..., default)`. -/
structure RawSeg : Type where
  speaker : Option String
  speaker_id : Option Nat
  start : Option ℚ
  stop : Option ℚ
  text : Option String
deriving DecidableEq

/-- One entry of `formatted_text` before string formatting: chunk-relative
start and end time (already renormalised), resolved speaker label, stripped
text. -/
structure FSeg : Type where
  start : ℚ
  stop : ℚ
  speaker : String
  text : String
deriving DecidableEq

/-- Loop state of the `for segment in result['segments']` loop:
`first_timestamp`, `current_speaker`, `speaker_count` (the local variable
that shadows the argument, reset to 0 at line 123) and the accumulated
`formatted_text` entries. -/
structure SegState : Type where
  first_timestamp : Option ℚ
  current_speaker : Option String
  speaker_count : Nat
  formatted : List FSeg

/-- Loop state at entry: `first_timestamp = None`, `current_speaker = None`,
`speaker_count = 0`, `formatted_text = []` (lines 119-123). -/
def initSegState : SegState := ⟨none, none, 0, []⟩

/-- One iteration of the segment loop (lines 125-162).
Speaker resolution: an explicit `speaker` field wins; otherwise a
`speaker_id` maps to `"Speaker " + str(speaker_id + 1)`; otherwise the
fallback alternation updates `current_speaker`/`speaker_count`.
Timing: `start`/`end` default to 0; the first segment's start is recorded
and subtracted from all times, clamped at 0 by `max`.
Text: stripped; empty-text segments are not appended. -/
def segStep (st : SegState) (seg : RawSeg) : SegState :=
  let resolved : String × Option String × Nat :=
    match seg.speaker with
    | some sp => (sp, st.current_speaker, st.speaker_count)
    | none =>
      match seg.speaker_id with
      | some sid => ("Speaker " ++ toString (sid + 1), st.current_speaker, st.speaker_count)
      | none =>
        match st.current_speaker with
        | none => ("Speaker 1", some "Speaker 1", 1)
        | some _ =>
          let k := st.speaker_count % 2 + 1
          ("Speaker " ++ toString k, some ("Speaker " ++ toString k), k)
  let start_raw : ℚ := seg.start.getD 0
  let end_raw : ℚ := seg.stop.getD 0
  let first : ℚ := st.first_timestamp.getD start_raw
  let start_time : ℚ := max 0 (start_raw - first)
  let end_time : ℚ := max 0 (end_raw - first)
  let tx : String := pyStrip (seg.text.getD "")
  { first_timestamp := some first
    current_speaker := resolved.2.1
    speaker_count := resolved.2.2
    formatted :=
      if tx = "" then st.formatted
      else st.formatted ++ [⟨start_time, end_time, resolved.1, tx⟩] }

/-- The `formatted_text` entries produced for a segments-reply. -/
def processSegments (segs : List RawSeg) : List FSeg :=
  (segs.foldl segStep initSegState).formatted

/-- The value the code subtracts from every returned time: the first
segment's start (default 0), or 0 for an empty segment list. -/
def firstStart : List RawSeg → ℚ
  | [] => 0
  | s :: _ => s.start.getD 0

/-- format_timestamp (lines 49-53): `MM:SS` with floor division and modulo
(Python `//` and `%` on floats, then `int`; both arguments are
non-negative at every call site). -/
def format_timestamp (seconds : ℚ) : String :=
  let minutes : Int := ⌊seconds / 60⌋
  let secs : Int := ⌊seconds - 60 * (⌊seconds / 60⌋ : ℚ)⌋
  let pad2 : Int → String := fun n =>
    let s := toString n
    if s.length < 2 then "0" ++ s else s
  pad2 minutes ++ ":" ++ pad2 secs

/-- One line of the joined return value (line 161). -/
def formatLine (e : FSeg) : String :=
  "[" ++ format_timestamp e.start ++ " - " ++ format_timestamp e.stop ++ "] "
    ++ e.speaker ++ ": " ++ e.text

/-- The three recognised shapes of a 200-response body: a `segments` array,
a flat `text` string, or anything else. -/
inductive ReplyBody : Type
  | segments (segs : List RawSeg)
  | text (t : String)
  | other
deriving DecidableEq

/-- Outcome of one `requests.post` call: a raised exception (network
failure) or a response with an HTTP status code and a body. -/
inductive ApiOutcome : Type
  | exc
  | resp (status : Nat) (body : ReplyBody)
deriving DecidableEq

/-- The value returned by `transcribe_audio` given the outcome of its API
call (lines 108-179).  Exceptions are caught and yield `""` (line 179);
a non-200 status yields `""` (line 175); an unrecognised body yields `""`
(line 172); a segments-reply yields the joined formatted lines; a text-reply
yields the stripped text, or `""` when it strips to nothing. -/
def transcribe_audio (api : ApiOutcome) : String :=
  match api with
  | .exc => ""
  | .resp status body =>
    if status = 200 then
      match body with
      | .segments segs =>
          String.intercalate "\n" ((processSegments segs).map formatLine)
      | .text t =>
          let tx := pyStrip t
          if tx ≠ "" then tx else ""
      | .other => ""
    else ""

/-- `transcribe_audio` against a stream of per-call API outcomes (`api n` is
what the n-th call would return).  The function body contains exactly one
`requests.post` and no retry loop, so precisely one outcome is consumed and
the result is determined by `api 0`.  Returns (result, number of calls
made). -/
def transcribe_audio_run (api : Nat → ApiOutcome) : String × Nat :=
  (transcribe_audio (api 0), 1)

/-- An outcome the spec classifies as retryable `ServiceUnavailable`:
a raised exception or a non-2xx (here: non-200, as the code tests) status. -/
def apiFails : ApiOutcome → Bool
  | .exc => true
  | .resp status _ => status ≠ 200

/- ### Audio preparation (transcribe_audio, lines 66-78)

Before submission the chunk is wrapped in an `AudioSegment` and the code
runs `if audio_segment.max_possible_amplitude > 0: audio_segment =
audio_segment.normalize()`.  `max_possible_amplitude` is pydub's format
constant `2 ^ (8 * sample_width - 1) = 32768` for 16-bit audio — not the
actual peak.  `pydub.effects.normalize` itself computes the actual peak
(`seg.max`) and returns the segment unchanged when that peak is 0,
otherwise applies gain towards full scale (the 0.1 dB headroom factor is a
constant of the external library and is omitted from the gain value here;
no claim depends on it). -/

/-- pydub `max_possible_amplitude` for sample_width 2: `2 ^ 15 = 32768`. -/
def max_possible_amplitude : ℚ := 2 ^ (8 * 2 - 1)

/-- Actual peak amplitude of the chunk: the maximum absolute sample value
(pydub `AudioSegment.max`). -/
def peakAmp (samples : List ℚ) : ℚ :=
  samples.foldr (fun x m => max |x| m) 0

/-- External `pydub.effects.normalize`: unchanged when the peak is 0,
otherwise every sample is scaled towards full amplitude. -/
def pydub_normalize (samples : List ℚ) : List ℚ :=
  if peakAmp samples = 0 then samples
  else samples.map (fun x => x * (max_possible_amplitude / peakAmp samples))

/-- The chunk samples actually submitted (before the silence padding):
the guard `max_possible_amplitude > 0` decides whether `normalize` runs. -/
def prepared_audio (samples : List ℚ) : List ℚ :=
  if 0 < max_possible_amplitude then pydub_normalize samples else samples

/- ### Chunk files: naming, sorting, parsing, timestamping

`record_audio_chunk` saves chunks as `f"chunk_{chunk_count:03d}.wav"` with
`chunk_count` incremented before each save, so the k-th saved chunk
(0-based) is file number k+1 (lines 238-245, 269-271).
`transcribe_recorded_chunks` (lines 280-320) lists the directory, keeps the
`.wav` names, sorts them (Python `sorted`: lexicographic by code point),
transcribes each, and for a non-empty transcript writes a line stamped
`chunk_num * 30` seconds where `chunk_num` is parsed back out of the file
name.  File names are modelled as `List Char` so that formatting, splitting
and lexicographic comparison are all explicit. -/

/-- The character of a decimal digit (`0 ≤ d ≤ 9`). -/
def digitChar (d : Nat) : Char := Char.ofNat (48 + d)

/-- Decimal digits of `n`, most significant first, via repeated division;
fuel-structured so that it is a structural recursion (the fuel `n + 1`
always suffices). -/
def natDigitsAux : Nat → Nat → List Char
  | 0, _ => []
  | fuel + 1, n =>
      if n < 10 then [digitChar n]
      else natDigitsAux fuel (n / 10) ++ [digitChar (n % 10)]

/-- Decimal representation of `n` (Python `str(n)` for `n ≥ 0`). -/
def natDigits (n : Nat) : List Char := natDigitsAux (n + 1) n

/-- Python `f"{n:03d}"`: zero-padded to width at least 3. -/
def pad3 (n : Nat) : List Char :=
  List.replicate (3 - (natDigits n).length) '0' ++ natDigits n

/-- The saved chunk file name `f"chunk_{n:03d}.wav"`. -/
def chunkFilename (n : Nat) : List Char :=
  "chunk_".data ++ pad3 n ++ ".wav".data

/-- Python `str.split(c)`: pieces between occurrences of `c`, empty pieces
preserved. -/
def splitOnChar (c : Char) : List Char → List (List Char)
  | [] => [[]]
  | x :: xs =>
      if x = c then [] :: splitOnChar c xs
      else
        match splitOnChar c xs with
        | [] => [[x]]
        | h :: t => (x :: h) :: t

/-- Python `int(s)` on a string of decimal digits. -/
def parseNat (s : List Char) : Nat :=
  s.foldl (fun acc c => 10 * acc + (c.toNat - 48)) 0

/-- `int(wav_file.split('_')[1].split('.')[0])` (line 311). -/
def chunkNumOf (f : List Char) : Nat :=
  parseNat ((splitOnChar '.' ((splitOnChar '_' f).get! 1)).get! 0)

/-- The comparison Python's stable `sorted` effectively merges with:
take from the left run unless the right element is strictly smaller
(strings compare lexicographically by code point; on `List Char` this is
the `Lex (· < ·)` order). -/
def nameLE (a b : List Char) : Bool := !(decide (b < a))

/-- `[f for f in os.listdir(output_dir) if f.endswith('.wav')]` (line 288). -/
def wavFilter (files : List (List Char)) : List (List Char) :=
  files.filter (fun f => ".wav".data.isSuffixOf f)

/-- `sorted(...)` of the kept `.wav` names (line 288). -/
def sortedWavs (files : List (List Char)) : List (List Char) :=
  (wavFilter files).mergeSort nameLE

/-- The transcript lines written by the `for wav_file in wav_files` loop
over a given (already ordered) name list: one `(timestamp, transcript)`
record appended per file whose transcription is non-empty, stamped
`chunk_num * 30` (lines 299-313).  `oracle` gives `transcribe_audio`'s
result for each file. -/
def chunkWritesOn (fs : List (List Char)) (oracle : List Char → String) :
    List (Nat × String) :=
  fs.foldl
    (fun acc f =>
      if oracle f = "" then acc else acc ++ [(chunkNumOf f * 30, oracle f)]) []

/-- All transcript records written by `transcribe_recorded_chunks` for a
directory listing `files`. -/
def chunkWrites (files : List (List Char)) (oracle : List Char → String) :
    List (Nat × String) :=
  chunkWritesOn (sortedWavs files) oracle

/-- The directory contents produced by a recording run of `m` chunks:
`chunk_001.wav` … `chunk_{m:03d}.wav`. -/
def runFiles (m : Nat) : List (List Char) :=
  (List.range' 1 m).map chunkFilename

/- ### Start-up cleanup (record_audio_chunk, lines 192-205) -/

/-- The cleanup loop: every name ending in `.wav` is removed from the
output directory (`os.remove`), other files are left alone. -/
def cleanup_old_chunks (files : List (List Char)) : List (List Char) :=
  files.filter (fun f => !(".wav".data.isSuffixOf f))

/-- Directory contents when capture starts: a missing directory is created
empty; an existing one is swept by the cleanup loop first. -/
def record_start_dir : Option (List (List Char)) → List (List Char)
  | none => []
  | some files => cleanup_old_chunks files

/-- The fallback alternation label attached to the reply segment at 0-based
position `i` when no segment of the chunk carries speaker information:
`"Speaker 1"` for even `i`, `"Speaker 2"` for odd `i`. -/
def altLabel (i : Nat) : String := "Speaker " ++ toString (i % 2 + 1)

/- ### Lemmas: file-mode chunk partition -/

theorem chunksOf_nil {α : Type} (c : Nat) : chunksOf c ([] : List α) = [] := by
  cases c <;> simp [chunksOf]

theorem chunksOf_cons {α : Type} (c : Nat) (x : α) (xs : List α) :
    chunksOf (c + 1) (x :: xs)
      = ((x :: xs).take (c + 1)) :: chunksOf (c + 1) ((x :: xs).drop (c + 1)) := by
  simp [chunksOf]

theorem chunksOf_ne_nil {α : Type} (c : Nat) (l : List α) (h : l ≠ []) :
    chunksOf (c + 1) l ≠ [] := by
  cases l with
  | nil => exact absurd rfl h
  | cons x xs => rw [chunksOf_cons]; simp

theorem chunksOf_flatten {α : Type} (c : Nat) (l : List α) :
    (chunksOf (c + 1) l).flatten = l := by
  suffices h : ∀ n (l : List α), l.length ≤ n → (chunksOf (c + 1) l).flatten = l from
    h l.length l le_rfl
  intro n
  induction n with
  | zero =>
    intro l hl
    have : l = [] := List.length_eq_zero.mp (Nat.le_zero.mp hl)
    subst this; simp [chunksOf_nil]
  | succ n ih =>
    intro l hl
    cases l with
    | nil => simp [chunksOf_nil]
    | cons x xs =>
      rw [chunksOf_cons, List.flatten_cons, ih _ (by simp at hl ⊢; omega),
        List.take_append_drop]

theorem chunksOf_mem_length {α : Type} (c : Nat) (l : List α) :
    ∀ ch ∈ chunksOf (c + 1) l, ch.length ≤ c + 1 := by
  suffices h : ∀ n (l : List α), l.length ≤ n →
      ∀ ch ∈ chunksOf (c + 1) l, ch.length ≤ c + 1 from h l.length l le_rfl
  intro n
  induction n with
  | zero =>
    intro l hl
    have : l = [] := List.length_eq_zero.mp (Nat.le_zero.mp hl)
    subst this; simp [chunksOf_nil]
  | succ n ih =>
    intro l hl
    cases l with
    | nil => simp [chunksOf_nil]
    | cons x xs =>
      rw [chunksOf_cons]
      intro ch hch
      rcases List.mem_cons.mp hch with h | h
      · subst h; simp [List.length_take]
      · exact ih _ (by simp at hl ⊢; omega) ch h

theorem chunksOf_length {α : Type} (c : Nat) (l : List α) :
    (chunksOf (c + 1) l).length = (l.length + c) / (c + 1) := by
  suffices h : ∀ n (l : List α), l.length ≤ n →
      (chunksOf (c + 1) l).length = (l.length + c) / (c + 1) from h l.length l le_rfl
  intro n
  induction n with
  | zero =>
    intro l hl
    have : l = [] := List.length_eq_zero.mp (Nat.le_zero.mp hl)
    subst this; simp [chunksOf_nil, Nat.div_eq_of_lt (by omega : c < c + 1)]
  | succ n ih =>
    intro l hl
    cases l with
    | nil => simp [chunksOf_nil, Nat.div_eq_of_lt (by omega : c < c + 1)]
    | cons x xs =>
      rw [chunksOf_cons, List.length_cons, ih _ (by simp at hl ⊢; omega)]
      simp only [List.length_drop]
      rcases le_or_lt (x :: xs).length (c + 1) with hle | hgt
      · have h1 : (x :: xs).length - (c + 1) = 0 := by omega
        rw [h1]
        have h2 : ((x :: xs).length + c) / (c + 1) = 1 := by
          have hlen : 1 ≤ (x :: xs).length := by simp
          apply Nat.div_eq_of_lt_le
          · simp only [Nat.one_mul]; omega
          · omega
        have h3 : (0 + c) / (c + 1) = 0 := Nat.div_eq_of_lt (by omega)
        rw [h2, h3]
      · have h1 : (x :: xs).length - (c + 1) + c + (c + 1)
            = (x :: xs).length + c := by omega
        calc ((x :: xs).length - (c + 1) + c) / (c + 1) + 1
            = ((x :: xs).length - (c + 1) + c + (c + 1)) / (c + 1) := by
              rw [Nat.add_div_right _ (Nat.succ_pos c)]
          _ = ((x :: xs).length + c) / (c + 1) := by rw [h1]

theorem chunksOf_getLast {α : Type} (c : Nat) (l : List α)
    (hd : ¬ (c + 1) ∣ l.length) :
    ∃ last, (chunksOf (c + 1) l).getLast? = some last
      ∧ last.length = l.length % (c + 1) := by
  suffices h : ∀ n (l : List α), l.length ≤ n → ¬ (c + 1) ∣ l.length →
      ∃ last, (chunksOf (c + 1) l).getLast? = some last
        ∧ last.length = l.length % (c + 1) from h l.length l le_rfl hd
  clear hd l
  intro n
  induction n with
  | zero =>
    intro l hl hd
    have : l = [] := List.length_eq_zero.mp (Nat.le_zero.mp hl)
    subst this
    simp at hd
  | succ n ih =>
  intro l hl hd
  cases l with
  | nil => simp at hd
  | cons x xs =>
    rw [chunksOf_cons]
    rcases le_or_lt (x :: xs).length (c + 1) with hle | hgt
    · have hdrop : (x :: xs).drop (c + 1) = [] := List.drop_eq_nil_of_le hle
      have htake : (x :: xs).take (c + 1) = x :: xs := List.take_of_length_le hle
      refine ⟨x :: xs, ?_, ?_⟩
      · rw [hdrop, chunksOf_nil, htake]; rfl
      · have hne : (x :: xs).length ≠ c + 1 := by
          intro h; exact hd ⟨1, by omega⟩
        have hlt : (x :: xs).length < c + 1 := by omega
        exact (Nat.mod_eq_of_lt hlt).symm
    · have hlt : ((x :: xs).drop (c + 1)).length < (x :: xs).length := by
        simp [List.length_drop]; omega
      have hmod : ((x :: xs).drop (c + 1)).length % (c + 1)
          = (x :: xs).length % (c + 1) := by
        simp only [List.length_drop]
        conv_rhs => rw [show (x :: xs).length
          = (c + 1) + ((x :: xs).length - (c + 1)) by omega]
        rw [Nat.add_mod_left]
      have hd' : ¬ (c + 1) ∣ ((x :: xs).drop (c + 1)).length := by
        rw [Nat.dvd_iff_mod_eq_zero, hmod, ← Nat.dvd_iff_mod_eq_zero]
        exact hd
      obtain ⟨last, hl2, hlen⟩ := ih _ (by simp at hl hlt ⊢; omega) hd'
      refine ⟨last, ?_, by rw [hlen, hmod]⟩
      obtain ⟨ys, hys⟩ := List.getLast?_eq_some_iff.mp hl2
      rw [hys, ← List.cons_append, List.getLast?_concat]

/- ### Lemmas: microphone-mode chunking -/

theorem micInput_nil {α : Type} : micInput ([] : List (MicEvent α)) = [] := rfl

theorem micInput_cons_arrive {α : Type} (blk : List α) (rest : List (MicEvent α)) :
    micInput (MicEvent.arrive blk :: rest) = blk ++ micInput rest := by
  simp [micInput]

theorem micInput_cons_poll {α : Type} (rest : List (MicEvent α)) :
    micInput (@MicEvent.poll α :: rest) = micInput rest := by
  simp [micInput]

/-- Conservation: the loop never duplicates or drops a sample — saved chunks
plus the pending buffer always concatenate to exactly the arrived input. -/
theorem micFoldl_flatten {α : Type} (spc : Nat) (evs : List (MicEvent α)) :
    ∀ s : MicState α,
      (evs.foldl (micStep spc) s).chunks.flatten
          ++ (evs.foldl (micStep spc) s).buffer
        = s.chunks.flatten ++ s.buffer ++ micInput evs := by
  induction evs with
  | nil => intro s; simp [micInput_nil]
  | cons e rest ih =>
    intro s
    cases e with
    | arrive blk =>
      rw [List.foldl_cons, micInput_cons_arrive]
      simp only [micStep]
      rw [ih ⟨s.buffer ++ blk, s.chunks⟩]
      simp [List.append_assoc]
    | poll =>
      rw [List.foldl_cons, micInput_cons_poll]
      have h := ih (micStep spc s MicEvent.poll)
      rw [h]
      simp only [micStep]
      by_cases hc : spc ≤ s.buffer.length
      · simp only [hc, if_pos]
        simp [List.append_assoc]
      · simp [hc]

/-- Every chunk the polling loop saves has exactly `spc` samples. -/
theorem micFoldl_sizes {α : Type} (spc : Nat) (evs : List (MicEvent α)) :
    ∀ s : MicState α, (∀ ch ∈ s.chunks, ch.length = spc) →
      ∀ ch ∈ (evs.foldl (micStep spc) s).chunks, ch.length = spc := by
  induction evs with
  | nil => intro s hs; simpa using hs
  | cons e rest ih =>
    intro s hs
    rw [List.foldl_cons]
    cases e with
    | arrive blk => exact ih _ (by simpa [micStep] using hs)
    | poll =>
      apply ih
      simp only [micStep]
      by_cases hc : spc ≤ s.buffer.length
      · simp only [hc, if_pos]
        intro ch hch
        rcases List.mem_append.mp hch with h | h
        · exact hs ch h
        · rcases List.mem_singleton.mp h with rfl
          simp [List.length_take, Nat.min_eq_left hc]
      · simpa [hc] using hs

/-- Correctness of a whole recording run, provided the loop has cut every
available full chunk before the stop signal (the final residue is at most
one chunk). -/
theorem micRun_correct {α : Type} (c : Nat) (evs : List (MicEvent α))
    (hres : (micRunState (c + 1) evs).buffer.length ≤ c + 1) :
    (micRun (c + 1) evs).length = ((micInput evs).length + c) / (c + 1)
    ∧ (∀ ch ∈ micRun (c + 1) evs, ch.length ≤ c + 1)
    ∧ (micRun (c + 1) evs).flatten = micInput evs
    ∧ (¬ (c + 1) ∣ (micInput evs).length →
        ∃ last, (micRun (c + 1) evs).getLast? = some last
          ∧ last.length = (micInput evs).length % (c + 1)) := by
  have hN : (micRunState (c + 1) evs).chunks.flatten
      ++ (micRunState (c + 1) evs).buffer = micInput evs := by
    have h := micFoldl_flatten (c + 1) evs ⟨[], []⟩
    simpa [micRunState] using h
  have hsz : ∀ ch ∈ (micRunState (c + 1) evs).chunks, ch.length = c + 1 :=
    micFoldl_sizes (c + 1) evs ⟨[], []⟩ (by simp)
  set s := micRunState (c + 1) evs with hs
  have hmap : s.chunks.map List.length = List.replicate s.chunks.length (c + 1) := by
    have := List.eq_replicate_of_mem (l := s.chunks.map List.length) (a := c + 1)
      (by intro b hb; rcases List.mem_map.mp hb with ⟨ch, hch, rfl⟩; exact hsz ch hch)
    simpa using this
  have hflatlen : s.chunks.flatten.length = s.chunks.length * (c + 1) := by
    rw [List.length_flatten, hmap, List.sum_replicate, smul_eq_mul]
  have hNlen : (micInput evs).length = s.chunks.length * (c + 1) + s.buffer.length := by
    rw [← hN, List.length_append, hflatlen]
  by_cases hb : s.buffer.isEmpty
  · have hb0 : s.buffer = [] := List.isEmpty_iff.mp hb
    have hrun : micRun (c + 1) evs = s.chunks := by
      simp [micRun, micFlush, ← hs, hb]
    refine ⟨?_, ?_, ?_, ?_⟩
    · rw [hrun, hNlen, hb0]
      simp only [List.length_nil, Nat.add_zero]
      have h1 : s.chunks.length * (c + 1) + c = c + (c + 1) * s.chunks.length := by ring
      rw [h1, Nat.add_mul_div_left _ _ (Nat.succ_pos c),
        Nat.div_eq_of_lt (by omega), Nat.zero_add]
    · rw [hrun]; intro ch hch; exact Nat.le_of_eq (hsz ch hch)
    · rw [hrun, ← hN, hb0, List.append_nil]
    · intro hdvd
      exact absurd ⟨s.chunks.length, by rw [hNlen, hb0]; simp [Nat.mul_comm]⟩ hdvd
  · have hb1 : 1 ≤ s.buffer.length := by
      rcases Nat.eq_zero_or_pos s.buffer.length with h | h
      · exact absurd (List.isEmpty_iff.mpr (List.length_eq_zero.mp h)) hb
      · exact h
    have hrun : micRun (c + 1) evs = s.chunks ++ [s.buffer] := by
      simp [micRun, micFlush, ← hs, hb]
    refine ⟨?_, ?_, ?_, ?_⟩
    · rw [hrun, hNlen]
      have h1 : s.chunks.length * (c + 1) + s.buffer.length + c
          = (s.buffer.length + c) + (c + 1) * s.chunks.length := by ring
      rw [h1, Nat.add_mul_div_left _ _ (Nat.succ_pos c)]
      have h2 : (s.buffer.length + c) / (c + 1) = 1 := by
        apply Nat.div_eq_of_lt_le
        · simp only [Nat.one_mul]; omega
        · omega
      rw [h2]
      simp [Nat.add_comm]
    · rw [hrun]
      intro ch hch
      rcases List.mem_append.mp hch with h | h
      · exact Nat.le_of_eq (hsz ch h)
      · rcases List.mem_singleton.mp h with rfl; exact hres
    · rw [hrun, List.flatten_append]
      simpa using hN
    · intro hdvd
      refine ⟨s.buffer, by rw [hrun, List.getLast?_concat], ?_⟩
      have hblt : s.buffer.length < c + 1 := by
        rcases Nat.lt_or_ge s.buffer.length (c + 1) with h | h
        · exact h
        · have heq : s.buffer.length = c + 1 := by omega
          exact absurd ⟨s.chunks.length + 1, by rw [hNlen, heq]; ring⟩ hdvd
      rw [hNlen, Nat.mul_comm, Nat.mul_add_mod, Nat.mod_eq_of_lt hblt]

/- ### Claim C1 -/

/-- C1 (amended): for file mode, `process_audio_file` emits exactly
`ceil(N / chunkSamples)` chunks, each at most one chunk long, whose
concatenated samples are exactly the input, the residue (when the length is
not a multiple of the chunk size) forming one final shorter chunk.  For mic
mode the same holds of `record_audio_chunk`'s polling loop provided the
residue still buffered at stream end is at most one chunk's worth (the loop
cut every available full chunk before the stop signal); without that
proviso the whole residue — possibly exceeding 30 seconds — is flushed as a
single oversized final chunk (see the counterexample). -/
theorem C1_chunk_partition
    (audio : List Int) (evs : List (MicEvent ℚ))
    (hres : (micRunState samples_per_chunk evs).buffer.length ≤ samples_per_chunk) :
    ((process_audio_file audio).length
        = (audio.length + samples_per_chunk - 1) / samples_per_chunk
      ∧ (∀ ch ∈ process_audio_file audio, ch.length ≤ samples_per_chunk)
      ∧ (process_audio_file audio).flatten = audio
      ∧ (¬ samples_per_chunk ∣ audio.length →
          ∃ last, (process_audio_file audio).getLast? = some last
            ∧ last.length = audio.length % samples_per_chunk))
    ∧ ((micRun samples_per_chunk evs).length
        = ((micInput evs).length + samples_per_chunk - 1) / samples_per_chunk
      ∧ (∀ ch ∈ micRun samples_per_chunk evs, ch.length ≤ samples_per_chunk)
      ∧ (micRun samples_per_chunk evs).flatten = micInput evs
      ∧ (¬ samples_per_chunk ∣ (micInput evs).length →
          ∃ last, (micRun samples_per_chunk evs).getLast? = some last
            ∧ last.length = (micInput evs).length % samples_per_chunk)) := by
  have hspc : samples_per_chunk = 479999 + 1 := by
    norm_num [samples_per_chunk, SAMPLE_RATE, CHUNK_DURATION]
  simp only [process_audio_file]
  rw [hspc] at hres ⊢
  have hsub1 : ∀ N : Nat, N + (479999 + 1) - 1 = N + 479999 := by intro N; omega
  obtain ⟨hm1, hm2, hm3, hm4⟩ := micRun_correct 479999 evs hres
  refine ⟨⟨?_, chunksOf_mem_length _ _, chunksOf_flatten _ _, chunksOf_getLast _ _⟩,
    ⟨?_, hm2, hm3, hm4⟩⟩
  · rw [chunksOf_length, hsub1]
  · rw [hm1, hsub1]

/-- C1 witness: the theorem applied at a concrete three-sample file input
and the empty microphone schedule (whose final residue, zero samples, is
within one chunk). -/
theorem C1_chunk_partition_witness :
    ((micRunState samples_per_chunk ([] : List (MicEvent ℚ))).buffer.length
        ≤ samples_per_chunk)
    ∧ (((process_audio_file [1, 2, 3]).length
          = (([1, 2, 3] : List Int).length + samples_per_chunk - 1) / samples_per_chunk
        ∧ (∀ ch ∈ process_audio_file [1, 2, 3], ch.length ≤ samples_per_chunk)
        ∧ (process_audio_file [1, 2, 3]).flatten = [1, 2, 3]
        ∧ (¬ samples_per_chunk ∣ ([1, 2, 3] : List Int).length →
            ∃ last, (process_audio_file [1, 2, 3]).getLast? = some last
              ∧ last.length = ([1, 2, 3] : List Int).length % samples_per_chunk))
      ∧ ((micRun samples_per_chunk ([] : List (MicEvent ℚ))).length
            = ((micInput ([] : List (MicEvent ℚ))).length + samples_per_chunk - 1)
              / samples_per_chunk
        ∧ (∀ ch ∈ micRun samples_per_chunk ([] : List (MicEvent ℚ)),
            ch.length ≤ samples_per_chunk)
        ∧ (micRun samples_per_chunk ([] : List (MicEvent ℚ))).flatten
            = micInput ([] : List (MicEvent ℚ))
        ∧ (¬ samples_per_chunk ∣ (micInput ([] : List (MicEvent ℚ))).length →
            ∃ last, (micRun samples_per_chunk ([] : List (MicEvent ℚ))).getLast?
                = some last
              ∧ last.length
                  = (micInput ([] : List (MicEvent ℚ))).length % samples_per_chunk))) :=
  ⟨by decide, C1_chunk_partition [1, 2, 3] [] (by decide)⟩

/-- C1 counterexample to the claim as stated: a microphone run in which a
chunk's worth plus one sample arrives but the stop signal lands before the
loop polls again.  The entire residue is flushed as one chunk, so the run
emits 1 chunk instead of `ceil(N / chunkSamples) = 2`, and that chunk
exceeds the 30-second chunk size. -/
theorem C1_claim_counterexample :
    micRun samples_per_chunk
        [MicEvent.arrive (List.replicate (samples_per_chunk + 1) (0 : ℚ))]
      = [List.replicate (samples_per_chunk + 1) (0 : ℚ)]
    ∧ (micRun samples_per_chunk
        [MicEvent.arrive (List.replicate (samples_per_chunk + 1) (0 : ℚ))]).length = 1
    ∧ (micInput [MicEvent.arrive (List.replicate (samples_per_chunk + 1) (0 : ℚ))]).length
        = samples_per_chunk + 1
    ∧ ((micInput [MicEvent.arrive (List.replicate (samples_per_chunk + 1) (0 : ℚ))]).length
          + samples_per_chunk - 1) / samples_per_chunk = 2
    ∧ ∃ ch ∈ micRun samples_per_chunk
        [MicEvent.arrive (List.replicate (samples_per_chunk + 1) (0 : ℚ))],
        samples_per_chunk < ch.length := by
  have hne0 : (List.replicate (samples_per_chunk + 1) (0 : ℚ)).isEmpty = false := by
    simp [List.isEmpty_iff]
  have hrun : micRun samples_per_chunk
      [MicEvent.arrive (List.replicate (samples_per_chunk + 1) (0 : ℚ))]
      = [List.replicate (samples_per_chunk + 1) (0 : ℚ)] := by
    simp [micRun, micRunState, micStep, micFlush, hne0]
  have hin : (micInput [MicEvent.arrive (List.replicate (samples_per_chunk + 1) (0 : ℚ))]).length
      = samples_per_chunk + 1 := by
    simp [micInput]
  refine ⟨hrun, by rw [hrun]; rfl, hin, ?_, ?_⟩
  · rw [hin]
    norm_num [samples_per_chunk, SAMPLE_RATE, CHUNK_DURATION]
  · refine ⟨List.replicate (samples_per_chunk + 1) (0 : ℚ), ?_, ?_⟩
    · rw [hrun]; exact List.mem_singleton.mpr rfl
    · simp

/- ### Lemmas: the segment loop of transcribe_audio -/

theorem segStep_first (st : SegState) (seg : RawSeg) :
    (segStep st seg).first_timestamp
      = some (st.first_timestamp.getD (seg.start.getD 0)) := rfl

theorem segStep_formatted_empty (st : SegState) (seg : RawSeg)
    (htx : pyStrip (seg.text.getD "") = "") :
    (segStep st seg).formatted = st.formatted := by
  simp [segStep, htx]

theorem segStep_formatted_nonempty (st : SegState) (seg : RawSeg)
    (htx : pyStrip (seg.text.getD "") ≠ "") :
    ∃ sp, (segStep st seg).formatted
      = st.formatted
        ++ [⟨max 0 (seg.start.getD 0 - st.first_timestamp.getD (seg.start.getD 0)),
             max 0 (seg.stop.getD 0 - st.first_timestamp.getD (seg.start.getD 0)),
             sp, pyStrip (seg.text.getD "")⟩] := by
  refine ⟨?_, ?_⟩
  · exact (match seg.speaker with
      | some sp => sp
      | none =>
        match seg.speaker_id with
        | some sid => "Speaker " ++ toString (sid + 1)
        | none =>
          match st.current_speaker with
          | none => "Speaker 1"
          | some _ => "Speaker " ++ toString (st.speaker_count % 2 + 1))
  · simp only [segStep, htx]
    cases seg.speaker <;> cases seg.speaker_id <;> cases st.current_speaker <;> rfl

/-- Every emitted entry has non-empty (stripped) text. -/
theorem segFoldl_text (segs : List RawSeg) :
    ∀ st : SegState, (∀ e ∈ st.formatted, e.text ≠ "") →
      ∀ e ∈ (segs.foldl segStep st).formatted, e.text ≠ "" := by
  induction segs with
  | nil => intro st hst; simpa using hst
  | cons s rest ih =>
    intro st hst
    rw [List.foldl_cons]
    apply ih
    by_cases htx : pyStrip (s.text.getD "") = ""
    · rw [segStep_formatted_empty st s htx]; exact hst
    · obtain ⟨sp, hsp⟩ := segStep_formatted_nonempty st s htx
      rw [hsp]
      intro e he
      rcases List.mem_append.mp he with h | h
      · exact hst e h
      · rcases List.mem_singleton.mp h with rfl
        exact htx

/-- Under the precondition that each raw segment has `start <= end`, every
emitted entry has `start <= stop` (clamped renormalisation is monotone). -/
theorem segFoldl_time (segs : List RawSeg) (hseg : ∀ s ∈ segs, s.start.getD 0 ≤ s.stop.getD 0) :
    ∀ st : SegState, (∀ e ∈ st.formatted, e.start ≤ e.stop) →
      ∀ e ∈ (segs.foldl segStep st).formatted, e.start ≤ e.stop := by
  induction segs with
  | nil => intro st hst; simpa using hst
  | cons s rest ih =>
    intro st hst
    rw [List.foldl_cons]
    apply ih (fun s hs => hseg s (List.mem_cons_of_mem _ hs))
    by_cases htx : pyStrip (s.text.getD "") = ""
    · rw [segStep_formatted_empty st s htx]; exact hst
    · obtain ⟨sp, hsp⟩ := segStep_formatted_nonempty st s htx
      rw [hsp]
      intro e he
      rcases List.mem_append.mp he with h | h
      · exact hst e h
      · rcases List.mem_singleton.mp h with rfl
        have hle := hseg s (List.mem_cons_self s rest)
        exact max_le_max le_rfl (by linarith)

/-- Renormalised times of everything emitted, once the first timestamp is
pinned: each kept segment contributes `max 0 (t - f)` for both ends. -/
theorem segFoldl_times (segs : List RawSeg) :
    ∀ (st : SegState) (f : ℚ), st.first_timestamp = some f →
      ((segs.foldl segStep st).formatted).map (fun e => (e.start, e.stop))
        = st.formatted.map (fun e => (e.start, e.stop))
          ++ segs.filterMap (fun s =>
              if pyStrip (s.text.getD "") = "" then none
              else some (max 0 (s.start.getD 0 - f), max 0 (s.stop.getD 0 - f))) := by
  induction segs with
  | nil => intro st f hf; simp
  | cons s rest ih =>
    intro st f hf
    rw [List.foldl_cons, List.filterMap_cons]
    have hf' : (segStep st s).first_timestamp = some f := by
      rw [segStep_first, hf]; rfl
    by_cases htx : pyStrip (s.text.getD "") = ""
    · rw [if_pos htx, ih (segStep st s) f hf', segStep_formatted_empty st s htx]
    · rw [if_neg htx, ih (segStep st s) f hf']
      obtain ⟨sp, hsp⟩ := segStep_formatted_nonempty st s htx
      rw [hsp, List.map_append, hf]
      simp [List.append_assoc]

/- ### Claim C7 -/

/-- C7 (confirmed): every `formatted_text` entry emitted for a
segments-reply has non-empty stripped text (empty-text segments are
dropped, not emitted), and — under the precondition that each raw reply
segment satisfies `start <= end` (with the code's default 0 for a missing
field) — satisfies `start <= end` after renormalisation. -/
theorem C7_segment_invariants (segs : List RawSeg) (e : FSeg)
    (he : e ∈ processSegments segs) :
    e.text ≠ ""
    ∧ ((∀ s ∈ segs, s.start.getD 0 ≤ s.stop.getD 0) → e.start ≤ e.stop) := by
  constructor
  · exact segFoldl_text segs initSegState (by simp [initSegState]) e he
  · intro h
    exact segFoldl_time segs h initSegState (by simp [initSegState]) e he

/-- C7 witness: the theorem applied to a concrete one-segment reply. -/
theorem C7_segment_invariants_witness :
    ((⟨0, 1, "Speaker 1", "hi"⟩ : FSeg)
        ∈ processSegments [⟨none, none, some 0, some 1, some " hi "⟩])
    ∧ ((⟨0, 1, "Speaker 1", "hi"⟩ : FSeg).text ≠ ""
       ∧ ((∀ s ∈ [(⟨none, none, some 0, some 1, some " hi "⟩ : RawSeg)],
            s.start.getD 0 ≤ s.stop.getD 0) →
          (⟨0, 1, "Speaker 1", "hi"⟩ : FSeg).start
            ≤ (⟨0, 1, "Speaker 1", "hi"⟩ : FSeg).stop)) := by
  have hstrip : pyStrip " hi " = "hi" := by decide
  have hcalc : processSegments [⟨none, none, some 0, some 1, some " hi "⟩]
      = [⟨0, 1, "Speaker 1", "hi"⟩] := by
    norm_num [processSegments, segStep, initSegState, hstrip,
      show ¬ ("hi" = "") by decide]
  have hmem : (⟨0, 1, "Speaker 1", "hi"⟩ : FSeg)
      ∈ processSegments [⟨none, none, some 0, some 1, some " hi "⟩] := by
    rw [hcalc]; exact List.mem_singleton.mpr rfl
  exact ⟨hmem, C7_segment_invariants _ _ hmem⟩

/- ### Claim C5 -/

/-- C5 (amended): `transcribe_audio` does not subtract the 100 ms padding
duration from returned times.  It subtracts the first returned segment's
start time from every start/end, clamping negative results to zero: the
emitted (start, stop) pairs are exactly `max 0 (t - firstStart)` over the
non-empty-text reply segments. -/
theorem C5_time_renormalisation (segs : List RawSeg) :
    (processSegments segs).map (fun e => (e.start, e.stop))
      = segs.filterMap (fun s =>
          if pyStrip (s.text.getD "") = "" then none
          else some (max 0 (s.start.getD 0 - firstStart segs),
                     max 0 (s.stop.getD 0 - firstStart segs))) := by
  cases segs with
  | nil => simp [processSegments, initSegState]
  | cons s rest =>
    show ((List.foldl segStep (segStep initSegState s) rest).formatted).map _ = _
    rw [segFoldl_times rest (segStep initSegState s) (firstStart (s :: rest))
      (by rw [segStep_first]; rfl)]
    rw [List.filterMap_cons]
    by_cases htx : pyStrip (s.text.getD "") = ""
    · rw [if_pos htx, segStep_formatted_empty initSegState s htx]
      simp [initSegState]
    · rw [if_neg htx]
      obtain ⟨sp, hsp⟩ := segStep_formatted_nonempty initSegState s htx
      rw [hsp]
      simp [initSegState, firstStart]

/-- C5 counterexample to the claim as stated: a reply whose only segment
starts at 0.5 s.  The code emits chunk-relative start 0 (it subtracts the
first segment's start, 0.5), while subtracting the padding duration would
give 0.4; the two disagree. -/
theorem C5_claim_counterexample :
    (processSegments [⟨none, none, some (1/2), some 1, some "hello"⟩]).map
        (fun e => e.start) = [0]
    ∧ ((1 : ℚ)/2 - 1/10 ≠ 0) := by
  constructor
  · norm_num [processSegments, segStep, initSegState,
      show pyStrip "hello" = "hello" from rfl, show ¬ ("hello" = "") by decide]
  · norm_num

/- ### Claim C4 -/

theorem snd_mem_of_mem_enumFrom {α : Type} :
    ∀ (l : List α) (n : Nat) (p : Nat × α), p ∈ l.enumFrom n → p.2 ∈ l := by
  intro l
  induction l with
  | nil => intro n p h; simp at h
  | cons x t ih =>
    intro n p h
    rw [List.enumFrom_cons] at h
    rcases List.mem_cons.mp h with h | h
    · subst h; exact List.mem_cons_self x t
    · exact List.mem_cons_of_mem _ (ih (n + 1) p h)

/-- One unlabeled segment advances the alternation, whether or not its text
survives the emptiness filter. -/
theorem segStep_unlabeled (st : SegState) (seg : RawSeg)
    (h1 : seg.speaker = none) (h2 : seg.speaker_id = none) (i : Nat)
    (hc : st.current_speaker = some (altLabel i)) (hk : st.speaker_count = i % 2 + 1) :
    (segStep st seg).current_speaker = some (altLabel (i + 1))
    ∧ (segStep st seg).speaker_count = (i + 1) % 2 + 1
    ∧ (segStep st seg).formatted
        = if pyStrip (seg.text.getD "") = "" then st.formatted
          else st.formatted
            ++ [⟨max 0 (seg.start.getD 0 - st.first_timestamp.getD (seg.start.getD 0)),
                 max 0 (seg.stop.getD 0 - st.first_timestamp.getD (seg.start.getD 0)),
                 altLabel (i + 1), pyStrip (seg.text.getD "")⟩] := by
  have hmod : (i % 2 + 1) % 2 + 1 = (i + 1) % 2 + 1 := by omega
  refine ⟨?_, ?_, ?_⟩ <;>
    simp [segStep, h1, h2, hc, hk, altLabel, hmod]

/-- In an all-unlabeled run the emitted labels alternate by raw position,
continuing from the alternation state reached so far. -/
theorem segFoldl_alt (segs : List RawSeg) :
    ∀ (i : Nat) (st : SegState),
      (∀ s ∈ segs, s.speaker = none ∧ s.speaker_id = none) →
      st.current_speaker = some (altLabel i) → st.speaker_count = i % 2 + 1 →
      ((segs.foldl segStep st).formatted).map (fun e => e.speaker)
        = st.formatted.map (fun e => e.speaker)
          ++ (segs.enumFrom (i + 1)).filterMap (fun p =>
              if pyStrip (p.2.text.getD "") = "" then none
              else some (altLabel p.1)) := by
  induction segs with
  | nil => intro i st _ _ _; simp
  | cons s rest ih =>
    intro i st hseg hc hk
    obtain ⟨h1, h2⟩ := hseg s (List.mem_cons_self s rest)
    obtain ⟨hc', hk', hf⟩ := segStep_unlabeled st s h1 h2 i hc hk
    rw [List.foldl_cons, List.enumFrom_cons, List.filterMap_cons,
      ih (i + 1) (segStep st s) (fun x hx => hseg x (List.mem_cons_of_mem _ hx)) hc' hk']
    by_cases htx : pyStrip (s.text.getD "") = ""
    · rw [if_pos htx, hf, if_pos htx]
    · rw [if_neg htx, hf, if_neg htx, List.map_append]
      simp

/-- C4 (amended): for a chunk none of whose reply segments carries
`speaker` or `speaker_id`, the fallback alternation is driven by every
reply segment in order — including empty-text segments, which advance the
alternation but are dropped from the output.  The emitted labels are the
alternating labels of the kept segments' raw positions (Speaker 1 at even
positions, Speaker 2 at odd ones); when every segment is non-empty they are
exactly Speaker 1, Speaker 2, Speaker 1, ….  The first *non-empty* segment
therefore gets Speaker 1 only when no empty segment precedes it (see the
counterexample). -/
theorem C4_fallback_alternation (segs : List RawSeg)
    (hseg : ∀ s ∈ segs, s.speaker = none ∧ s.speaker_id = none) :
    (processSegments segs).map (fun e => e.speaker)
      = segs.enum.filterMap (fun p =>
          if pyStrip (p.2.text.getD "") = "" then none else some (altLabel p.1))
    ∧ ((∀ s ∈ segs, pyStrip (s.text.getD "") ≠ "") →
        (processSegments segs).map (fun e => e.speaker)
          = (List.range segs.length).map altLabel) := by
  have hmain : (processSegments segs).map (fun e => e.speaker)
      = segs.enum.filterMap (fun p =>
          if pyStrip (p.2.text.getD "") = "" then none else some (altLabel p.1)) := by
    cases segs with
    | nil => simp [processSegments, initSegState]
    | cons s rest =>
      obtain ⟨h1, h2⟩ := hseg s (List.mem_cons_self s rest)
      show ((List.foldl segStep (segStep initSegState s) rest).formatted).map _ = _
      have hstep : (segStep initSegState s).current_speaker = some (altLabel 0)
          ∧ (segStep initSegState s).speaker_count = 0 % 2 + 1
          ∧ (segStep initSegState s).formatted
            = if pyStrip (s.text.getD "") = "" then []
              else [⟨max 0 (s.start.getD 0 - s.start.getD 0),
                     max 0 (s.stop.getD 0 - s.start.getD 0), altLabel 0,
                     pyStrip (s.text.getD "")⟩] := by
        refine ⟨?_, ?_, ?_⟩ <;>
          · simp [segStep, h1, h2, initSegState, altLabel]
            try rfl
      obtain ⟨hc, hk, hf⟩ := hstep
      rw [segFoldl_alt rest 0 (segStep initSegState s)
        (fun x hx => hseg x (List.mem_cons_of_mem _ hx)) hc hk]
      rw [List.enum_eq_enumFrom, List.enumFrom_cons, List.filterMap_cons, hf]
      by_cases htx : pyStrip (s.text.getD "") = ""
      · rw [if_pos htx, if_pos htx]; simp
      · rw [if_neg htx, if_neg htx]; simp
  refine ⟨hmain, ?_⟩
  intro hne
  rw [hmain]
  have hall : ∀ l : List (Nat × RawSeg), (∀ p ∈ l, pyStrip (p.2.text.getD "") ≠ "") →
      l.filterMap (fun p =>
        if pyStrip (p.2.text.getD "") = "" then none else some (altLabel p.1))
        = l.map (fun p => altLabel p.1) := by
    intro l
    induction l with
    | nil => intro _; rfl
    | cons p t ih =>
      intro h
      rw [List.filterMap_cons, if_neg (h p (List.mem_cons_self p t)), List.map_cons,
        ih (fun x hx => h x (List.mem_cons_of_mem _ hx))]
  rw [hall segs.enum (by
    intro p hp
    exact hne p.2 (snd_mem_of_mem_enumFrom segs 0 p (List.enum_eq_enumFrom ▸ hp)))]
  have hcomp : (fun p : Nat × RawSeg => altLabel p.1) = altLabel ∘ Prod.fst := rfl
  rw [hcomp, ← List.map_map, List.enum_eq_enumFrom, List.enumFrom_map_fst,
    ← List.range_eq_range']

/-- C4 witness: three non-empty unlabeled segments yield the alternating
labels; hypotheses discharged at the concrete reply. -/
theorem C4_fallback_alternation_witness :
    (∀ s ∈ ([⟨none, none, some 0, some 1, some "a"⟩,
             ⟨none, none, some 1, some 2, some "b"⟩,
             ⟨none, none, some 2, some 3, some "c"⟩] : List RawSeg),
        s.speaker = none ∧ s.speaker_id = none)
    ∧ ((processSegments [⟨none, none, some 0, some 1, some "a"⟩,
          ⟨none, none, some 1, some 2, some "b"⟩,
          ⟨none, none, some 2, some 3, some "c"⟩]).map (fun e => e.speaker)
        = ([⟨none, none, some 0, some 1, some "a"⟩,
            ⟨none, none, some 1, some 2, some "b"⟩,
            ⟨none, none, some 2, some 3, some "c"⟩] : List RawSeg).enum.filterMap
            (fun p => if pyStrip (p.2.text.getD "") = "" then none
                      else some (altLabel p.1))
      ∧ ((∀ s ∈ ([⟨none, none, some 0, some 1, some "a"⟩,
              ⟨none, none, some 1, some 2, some "b"⟩,
              ⟨none, none, some 2, some 3, some "c"⟩] : List RawSeg),
            pyStrip (s.text.getD "") ≠ "") →
          (processSegments [⟨none, none, some 0, some 1, some "a"⟩,
            ⟨none, none, some 1, some 2, some "b"⟩,
            ⟨none, none, some 2, some 3, some "c"⟩]).map (fun e => e.speaker)
            = (List.range ([⟨none, none, some 0, some 1, some "a"⟩,
                ⟨none, none, some 1, some 2, some "b"⟩,
                ⟨none, none, some 2, some 3, some "c"⟩] : List RawSeg).length).map
                altLabel)) :=
  ⟨by decide, C4_fallback_alternation _ (by decide)⟩

/-- C4 counterexample to the claim as stated: an all-unlabeled reply whose
first segment has empty text.  The dropped empty segment still advances the
alternation, so the first non-empty segment is labeled Speaker 2, and the
three non-empty segments come out Speaker 2, Speaker 1, Speaker 2 — not
the claimed Speaker 1, Speaker 2, Speaker 1. -/
theorem C4_claim_counterexample :
    (∀ s ∈ ([⟨none, none, some 0, some 1, some ""⟩,
             ⟨none, none, some 1, some 2, some "a"⟩,
             ⟨none, none, some 2, some 3, some "b"⟩,
             ⟨none, none, some 3, some 4, some "c"⟩] : List RawSeg),
        s.speaker = none ∧ s.speaker_id = none)
    ∧ (processSegments [⟨none, none, some 0, some 1, some ""⟩,
          ⟨none, none, some 1, some 2, some "a"⟩,
          ⟨none, none, some 2, some 3, some "b"⟩,
          ⟨none, none, some 3, some 4, some "c"⟩]).map (fun e => e.speaker)
        = ["Speaker 2", "Speaker 1", "Speaker 2"]
    ∧ (["Speaker 2", "Speaker 1", "Speaker 2"]
        ≠ ["Speaker 1", "Speaker 2", "Speaker 1"]) :=
  ⟨by decide, rfl, by decide⟩

/- ### Claim C9 -/

/-- C9 (confirmed): `transcribe_audio` is total over every modelled API
outcome (it is a total function by construction — every branch of the
`try/except` and of the reply dispatch returns a string), and every failure
path returns the empty string: a raised exception, any non-200 status, an
unrecognised 200-body, a text-reply that strips to nothing.  A valid
segments-reply with no usable text also returns `""`, so a failed call is
indistinguishable from an empty result by return value alone. -/
theorem C9_failure_paths_empty :
    transcribe_audio ApiOutcome.exc = ""
    ∧ (∀ (status : Nat) (body : ReplyBody), status ≠ 200 →
        transcribe_audio (ApiOutcome.resp status body) = "")
    ∧ (∀ t : String, pyStrip t = "" →
        transcribe_audio (ApiOutcome.resp 200 (ReplyBody.text t)) = "")
    ∧ transcribe_audio (ApiOutcome.resp 200 ReplyBody.other) = ""
    ∧ transcribe_audio (ApiOutcome.resp 200 (ReplyBody.segments [])) = "" := by
  refine ⟨rfl, ?_, ?_, rfl, rfl⟩
  · intro status body h
    simp [transcribe_audio, h]
  · intro t h
    simp [transcribe_audio, h]

/-- C9 witness: a 500-response and an all-whitespace text reply, both
yielding the empty string. -/
theorem C9_failure_paths_empty_witness :
    ((500 : Nat) ≠ 200) ∧ (pyStrip "  " = "")
    ∧ transcribe_audio (ApiOutcome.resp 500 ReplyBody.other) = ""
    ∧ transcribe_audio (ApiOutcome.resp 200 (ReplyBody.text "  ")) = "" :=
  ⟨by decide, by decide,
   C9_failure_paths_empty.2.1 500 ReplyBody.other (by decide),
   C9_failure_paths_empty.2.2.1 "  " (by decide)⟩

/- ### Claim C8 -/

/-- C8 (confirmed): the submitted chunk is unchanged exactly when its
actual peak amplitude is zero, and peak-normalised otherwise.  The
repository's own guard (`max_possible_amplitude > 0`, line 73) is a
constant `32768 > 0` and therefore always passes; the silence case is a
no-op because `pydub.effects.normalize` returns the segment unchanged when
the measured peak is 0. -/
theorem C8_normalization_guard (samples : List ℚ) :
    (peakAmp samples = 0 → prepared_audio samples = samples)
    ∧ (peakAmp samples ≠ 0 →
        prepared_audio samples
          = samples.map (fun x => x * (max_possible_amplitude / peakAmp samples))) := by
  have hguard : (0 : ℚ) < max_possible_amplitude := by
    norm_num [max_possible_amplitude]
  constructor
  · intro h
    rw [prepared_audio, if_pos hguard, pydub_normalize, if_pos h]
  · intro h
    rw [prepared_audio, if_pos hguard, pydub_normalize, if_neg h]

/-- C8 witness: pure silence is left alone; a non-silent chunk is scaled. -/
theorem C8_normalization_guard_witness :
    (peakAmp [0, 0] = 0) ∧ (peakAmp [1, -2] ≠ 0)
    ∧ prepared_audio [0, 0] = [0, 0]
    ∧ prepared_audio [1, -2]
        = [1, -2].map (fun x => x * (max_possible_amplitude / peakAmp [1, -2])) :=
  ⟨by norm_num [peakAmp], by norm_num [peakAmp],
   (C8_normalization_guard [0, 0]).1 (by norm_num [peakAmp]),
   (C8_normalization_guard [1, -2]).2 (by norm_num [peakAmp])⟩

/- ### Lemmas: chunk file names -/

theorem digitChar_lt_iff : ∀ x < 10, ∀ y < 10,
    (digitChar x < digitChar y ↔ x < y) := by decide

theorem digitChar_ne_underscore : ∀ x < 10, digitChar x ≠ '_' := by decide

theorem digitChar_ne_dot : ∀ x < 10, digitChar x ≠ '.' := by decide

theorem digitChar_toNat : ∀ x < 10, (digitChar x).toNat = 48 + x := by decide

theorem natDigitsAux_pos (fuel n : Nat) (h : 0 < fuel) :
    natDigitsAux fuel n
      = if n < 10 then [digitChar n]
        else natDigitsAux (fuel - 1) (n / 10) ++ [digitChar (n % 10)] := by
  cases fuel with
  | zero => omega
  | succ f => simp [natDigitsAux]

theorem natDigits_lt_10 (n : Nat) (h : n < 10) : natDigits n = [digitChar n] := by
  rw [natDigits, natDigitsAux_pos _ _ (by omega), if_pos h]

theorem natDigits_lt_100 (n : Nat) (h1 : 10 ≤ n) (h2 : n < 100) :
    natDigits n = [digitChar (n / 10), digitChar (n % 10)] := by
  rw [natDigits, natDigitsAux_pos _ _ (by omega), if_neg (by omega),
    natDigitsAux_pos _ _ (by omega), if_pos (by omega)]
  rfl

theorem natDigits_lt_1000 (n : Nat) (h1 : 100 ≤ n) (h2 : n < 1000) :
    natDigits n
      = [digitChar (n / 100), digitChar (n / 10 % 10), digitChar (n % 10)] := by
  have hdd : n / 10 / 10 = n / 100 := by omega
  rw [natDigits, natDigitsAux_pos _ _ (by omega), if_neg (by omega),
    natDigitsAux_pos _ _ (by omega), if_neg (by omega),
    natDigitsAux_pos _ _ (by omega), if_pos (by omega), hdd]
  rfl

theorem pad3_eq (n : Nat) (h : n ≤ 999) :
    pad3 n = [digitChar (n / 100), digitChar (n / 10 % 10), digitChar (n % 10)] := by
  rcases Nat.lt_or_ge n 10 with h1 | h1
  · rw [pad3, natDigits_lt_10 n h1]
    have e1 : n / 100 = 0 := by omega
    have e2 : n / 10 % 10 = 0 := by omega
    have e3 : n % 10 = n := by omega
    rw [e1, e2, e3]
    rfl
  · rcases Nat.lt_or_ge n 100 with h2 | h2
    · rw [pad3, natDigits_lt_100 n h1 h2]
      have e1 : n / 100 = 0 := by omega
      have e2 : n / 10 % 10 = n / 10 := by omega
      rw [e1, e2]
      rfl
    · rw [pad3, natDigits_lt_1000 n h2 (by omega)]
      rfl

theorem splitOnChar_not_mem (c : Char) :
    ∀ l : List Char, c ∉ l → splitOnChar c l = [l] := by
  intro l
  induction l with
  | nil => intro _; rfl
  | cons x xs ih =>
    intro h
    have hx : ¬ (x = c) := fun hc => h (hc ▸ List.mem_cons_self x xs)
    have hxs : c ∉ xs := fun hc => h (List.mem_cons_of_mem _ hc)
    rw [splitOnChar, if_neg hx, ih hxs]

theorem splitOnChar_first (c : Char) :
    ∀ l1 l2 : List Char, c ∉ l1 →
      splitOnChar c (l1 ++ c :: l2) = l1 :: splitOnChar c l2 := by
  intro l1
  induction l1 with
  | nil =>
    intro l2 _
    show splitOnChar c (c :: l2) = [] :: splitOnChar c l2
    rw [splitOnChar, if_pos rfl]
  | cons x xs ih =>
    intro l2 h
    have hx : ¬ (x = c) := fun hc => h (hc ▸ List.mem_cons_self x xs)
    have hxs : c ∉ xs := fun hc => h (List.mem_cons_of_mem _ hc)
    show splitOnChar c (x :: (xs ++ c :: l2)) = (x :: xs) :: splitOnChar c l2
    rw [splitOnChar, if_neg hx, ih l2 hxs]

theorem parseNat_pad3 (n : Nat) (h : n ≤ 999) : parseNat (pad3 n) = n := by
  rw [pad3_eq n h, parseNat]
  simp only [List.foldl_cons, List.foldl_nil]
  rw [digitChar_toNat (n / 100) (by omega),
    digitChar_toNat (n / 10 % 10) (by omega),
    digitChar_toNat (n % 10) (by omega)]
  omega

/-- Parsing the chunk number back out of a saved file name recovers the
chunk count (for runs below 1000 chunks, where the `%03d` field holds
exactly three digits). -/
theorem chunkNumOf_chunkFilename (n : Nat) (h : n ≤ 999) :
    chunkNumOf (chunkFilename n) = n := by
  have hsplit : chunkFilename n
      = "chunk".data ++ '_' :: (pad3 n ++ ".wav".data) := by
    show "chunk_".data ++ pad3 n ++ ".wav".data = _
    simp
  have hd1 := digitChar_ne_underscore (n / 100) (by omega)
  have hd2 := digitChar_ne_underscore (n / 10 % 10) (by omega)
  have hd3 := digitChar_ne_underscore (n % 10) (by omega)
  have hnu : ('_' : Char) ∉ (pad3 n ++ ".wav".data) := by
    rw [pad3_eq n h]
    intro hmem
    rcases List.mem_append.mp hmem with hm | hm
    · rcases List.mem_cons.mp hm with h1 | hm
      · exact hd1 h1.symm
      · rcases List.mem_cons.mp hm with h1 | hm
        · exact hd2 h1.symm
        · rcases List.mem_cons.mp hm with h1 | hm
          · exact hd3 h1.symm
          · simp at hm
    · revert hm; decide
  have hnc : ('_' : Char) ∉ "chunk".data := by decide
  have he1 := digitChar_ne_dot (n / 100) (by omega)
  have he2 := digitChar_ne_dot (n / 10 % 10) (by omega)
  have he3 := digitChar_ne_dot (n % 10) (by omega)
  have hnd : ('.' : Char) ∉ pad3 n := by
    rw [pad3_eq n h]
    intro hmem
    rcases List.mem_cons.mp hmem with h1 | hm
    · exact he1 h1.symm
    · rcases List.mem_cons.mp hm with h1 | hm
      · exact he2 h1.symm
      · rcases List.mem_cons.mp hm with h1 | hm
        · exact he3 h1.symm
        · simp at hm
  have hwav : (".wav".data : List Char) = '.' :: "wav".data := rfl
  have hnw : ('.' : Char) ∉ "wav".data := by decide
  rw [chunkNumOf, hsplit, splitOnChar_first '_' "chunk".data _ hnc]
  have hget1 : (["chunk".data, pad3 n ++ ".wav".data].get! 1)
      = pad3 n ++ ".wav".data := rfl
  rw [show splitOnChar '_' (pad3 n ++ ".wav".data) = [pad3 n ++ ".wav".data] from
    splitOnChar_not_mem '_' _ hnu]
  rw [hget1, hwav, splitOnChar_first '.' (pad3 n) _ hnd,
    show splitOnChar '.' "wav".data = ["wav".data] from splitOnChar_not_mem '.' _ hnw]
  exact parseNat_pad3 n h

/- ### Lemmas: transcript writes -/

theorem chunkWritesOn_acc (oracle : List Char → String) :
    ∀ (fs : List (List Char)) (acc : List (Nat × String)),
      fs.foldl (fun acc f =>
          if oracle f = "" then acc else acc ++ [(chunkNumOf f * 30, oracle f)]) acc
        = acc ++ chunkWritesOn fs oracle := by
  intro fs
  induction fs with
  | nil => intro acc; simp [chunkWritesOn]
  | cons f t ih =>
    intro acc
    rw [List.foldl_cons, ih]
    conv_rhs => rw [chunkWritesOn, List.foldl_cons, ih]
    by_cases h : oracle f = "" <;> simp [h]

theorem chunkWritesOn_cons (oracle : List Char → String) (f : List Char)
    (t : List (List Char)) :
    chunkWritesOn (f :: t) oracle
      = (if oracle f = "" then [] else [(chunkNumOf f * 30, oracle f)])
        ++ chunkWritesOn t oracle := by
  rw [chunkWritesOn, List.foldl_cons, chunkWritesOn_acc]
  by_cases h : oracle f = "" <;> simp [h]

theorem chunkWritesOn_append (oracle : List Char → String) :
    ∀ l₁ l₂ : List (List Char),
      chunkWritesOn (l₁ ++ l₂) oracle
        = chunkWritesOn l₁ oracle ++ chunkWritesOn l₂ oracle := by
  intro l₁
  induction l₁ with
  | nil => intro l₂; simp [chunkWritesOn]
  | cons f t ih =>
    intro l₂
    rw [List.cons_append, chunkWritesOn_cons, chunkWritesOn_cons, ih, List.append_assoc]

theorem chunkWritesOn_all_nonempty (oracle : List Char → String) :
    ∀ fs : List (List Char), (∀ f ∈ fs, oracle f ≠ "") →
      chunkWritesOn fs oracle = fs.map (fun f => (chunkNumOf f * 30, oracle f)) := by
  intro fs
  induction fs with
  | nil => intro _; rfl
  | cons f t ih =>
    intro h
    rw [chunkWritesOn_cons, if_neg (h f (List.mem_cons_self f t)),
      ih (fun x hx => h x (List.mem_cons_of_mem _ hx))]
    rfl

theorem chunkWritesOn_fst_mem (oracle : List Char → String) :
    ∀ (fs : List (List Char)) (v : Nat),
      v ∈ (chunkWritesOn fs oracle).map Prod.fst →
        ∃ f ∈ fs, v = chunkNumOf f * 30 := by
  intro fs
  induction fs with
  | nil => intro v hv; simp [chunkWritesOn] at hv
  | cons f t ih =>
    intro v hv
    rw [chunkWritesOn_cons] at hv
    by_cases h : oracle f = ""
    · rw [if_pos h] at hv
      simp only [List.nil_append] at hv
      obtain ⟨g, hg, hgv⟩ := ih v hv
      exact ⟨g, List.mem_cons_of_mem _ hg, hgv⟩
    · rw [if_neg h] at hv
      rw [List.map_append, List.mem_append] at hv
      rcases hv with hv | hv
      · simp at hv
        exact ⟨f, List.mem_cons_self f t, hv⟩
      · obtain ⟨g, hg, hgv⟩ := ih v hv
        exact ⟨g, List.mem_cons_of_mem _ hg, hgv⟩

/-- Timestamps written for chunk files processed in increasing
chunk-number order are non-decreasing. -/
theorem chunkWritesOn_fst_sorted (oracle : List Char → String) :
    ∀ ns : List Nat, ns.Pairwise (· < ·) → (∀ n ∈ ns, n ≤ 999) →
      ((chunkWritesOn (ns.map chunkFilename) oracle).map Prod.fst).Sorted (· ≤ ·) := by
  intro ns
  induction ns with
  | nil => intro _ _; simp [chunkWritesOn]
  | cons n t ih =>
    intro hp hb
    rw [List.pairwise_cons] at hp
    rw [List.map_cons, chunkWritesOn_cons]
    by_cases h : oracle (chunkFilename n) = ""
    · rw [if_pos h]
      simpa using ih hp.2 (fun x hx => hb x (List.mem_cons_of_mem _ hx))
    · rw [if_neg h]
      simp only [List.singleton_append, List.map_cons]
      rw [List.sorted_cons]
      constructor
      · intro v hv
        obtain ⟨g, hg, rfl⟩ := chunkWritesOn_fst_mem oracle _ v hv
        obtain ⟨m, hm, rfl⟩ := List.mem_map.mp hg
        rw [chunkNumOf_chunkFilename n (hb n (List.mem_cons_self n t)),
          chunkNumOf_chunkFilename m (hb m (List.mem_cons_of_mem _ hm))]
        have : n < m := hp.1 m hm
        omega
      · exact ih hp.2 (fun x hx => hb x (List.mem_cons_of_mem _ hx))

/- ### Lemmas: lexicographic order of chunk file names -/

theorem lex_lt_append_same {p x y : List Char} (h : x < y) : (p ++ x) < (p ++ y) := by
  induction p with
  | nil => exact h
  | cons a t ih => exact List.Lex.cons ih

theorem lex_digits3 {d1 d2 d3 e1 e2 e3 : Char} (s : List Char)
    (h : d1 < e1 ∨ (d1 = e1 ∧ (d2 < e2 ∨ (d2 = e2 ∧ d3 < e3)))) :
    (d1 :: d2 :: d3 :: s) < (e1 :: e2 :: e3 :: s) := by
  rcases h with h | ⟨rfl, h | ⟨rfl, h⟩⟩
  · exact List.Lex.rel h
  · exact List.Lex.cons (List.Lex.rel h)
  · exact List.Lex.cons (List.Lex.cons (List.Lex.rel h))

/-- `%03d`-padded names compare lexicographically like their chunk numbers,
as long as the numbers stay below 1000. -/
theorem chunkFilename_lt (a b : Nat) (hab : a < b) (hb : b ≤ 999) :
    chunkFilename a < chunkFilename b := by
  have hfa : chunkFilename a = "chunk_".data ++ (pad3 a ++ ".wav".data) := by
    rw [chunkFilename, List.append_assoc]
  have hfb : chunkFilename b = "chunk_".data ++ (pad3 b ++ ".wav".data) := by
    rw [chunkFilename, List.append_assoc]
  rw [hfa, hfb]
  apply lex_lt_append_same
  rw [pad3_eq a (by omega), pad3_eq b hb]
  apply lex_digits3
  have hd : a / 100 < b / 100
      ∨ (a / 100 = b / 100 ∧ (a / 10 % 10 < b / 10 % 10
        ∨ (a / 10 % 10 = b / 10 % 10 ∧ a % 10 < b % 10))) := by omega
  rcases hd with h | ⟨h1, h | ⟨h2, h⟩⟩
  · exact Or.inl ((digitChar_lt_iff _ (by omega) _ (by omega)).mpr h)
  · exact Or.inr ⟨by rw [h1], Or.inl ((digitChar_lt_iff _ (by omega) _ (by omega)).mpr h)⟩
  · exact Or.inr ⟨by rw [h1], Or.inr ⟨by rw [h2],
      (digitChar_lt_iff _ (by omega) _ (by omega)).mpr h⟩⟩

theorem nameLE_total (a b : List Char) : (nameLE a b || nameLE b a) = true := by
  simp only [nameLE, Bool.or_eq_true, Bool.not_eq_false', decide_eq_false_iff_not,
    Bool.not_eq_true', decide_eq_false_iff_not]
  by_cases h : b < a
  · exact Or.inr (lt_asymm h)
  · exact Or.inl h

theorem nameLE_trans (a b c : List Char) (h1 : nameLE a b) (h2 : nameLE b c) :
    nameLE a c = true := by
  simp only [nameLE, Bool.not_eq_true', decide_eq_false_iff_not] at h1 h2 ⊢
  intro hca
  exact h1 (lt_of_le_of_lt (le_of_not_lt h2) hca)

theorem nameLE_of_lt {a b : List Char} (h : a < b) : nameLE a b = true := by
  simp only [nameLE, Bool.not_eq_true', decide_eq_false_iff_not]
  exact lt_asymm h

theorem wavFilter_runFiles (m : Nat) : wavFilter (runFiles m) = runFiles m := by
  rw [wavFilter, List.filter_eq_self]
  intro f hf
  rcases List.mem_map.mp hf with ⟨n, _, rfl⟩
  rw [chunkFilename, List.append_assoc]
  exact List.isSuffixOf_iff_suffix.mpr
    ((List.suffix_append _ _).trans (List.suffix_append _ _))

theorem runFiles_pairwise (m : Nat) (hm : m ≤ 999) :
    (runFiles m).Pairwise (fun a b => nameLE a b = true) := by
  rw [runFiles, List.pairwise_map]
  have hlt : (List.range' 1 m).Pairwise (· < ·) := List.pairwise_lt_range' 1 m
  apply List.Pairwise.imp_of_mem ?_ hlt
  intro a b ha hb hab
  have hbb : b ≤ 999 := by
    rcases List.mem_range'.mp hb with ⟨i, hi, rfl⟩
    omega
  exact nameLE_of_lt (chunkFilename_lt a b hab hbb)

theorem sortedWavs_runFiles (m : Nat) (hm : m ≤ 999) :
    sortedWavs (runFiles m) = runFiles m := by
  rw [sortedWavs, wavFilter_runFiles]
  exact List.mergeSort_of_sorted (runFiles_pairwise m hm)

/- ### Claim C3 -/

theorem pairwise_or_of_mem {α : Type} {R : α → α → Prop} :
    ∀ {l : List α}, l.Pairwise R → ∀ {x y : α}, x ∈ l → y ∈ l → x ≠ y →
      R x y ∨ R y x := by
  intro l hl
  induction hl with
  | nil => intro x y hx _ _; simp at hx
  | cons hhead _ ih =>
    intro x y hx hy hxy
    rcases List.mem_cons.mp hx with rfl | hx2
    · rcases List.mem_cons.mp hy with rfl | hy2
      · exact absurd rfl hxy
      · exact Or.inl (hhead y hy2)
    · rcases List.mem_cons.mp hy with rfl | hy2
      · exact Or.inr (hhead x hx2)
      · exact ih hx2 hy2 hxy

/-- C3 (amended): for every run whose chunk count stays below 1000 — where
lexicographic file-name order coincides with chunk-number order — the
transcript records are written with non-decreasing timestamps; and the
write loop is append-only: the records written for any initial part of the
processing order are extended, never rewritten, by the rest.  From chunk
1000 on, `chunk_1000.wav` sorts lexicographically before `chunk_999.wav`
and the timestamp order breaks (see the counterexample). -/
theorem C3_transcript_order (m : Nat) (oracle : List Char → String) (hm : m ≤ 999) :
    ((chunkWrites (runFiles m) oracle).map Prod.fst).Sorted (· ≤ ·)
    ∧ (∀ l₁ l₂ : List (List Char),
        chunkWritesOn (l₁ ++ l₂) oracle
          = chunkWritesOn l₁ oracle ++ chunkWritesOn l₂ oracle) := by
  constructor
  · rw [chunkWrites, sortedWavs_runFiles m hm, runFiles]
    apply chunkWritesOn_fst_sorted
    · exact List.pairwise_lt_range' 1 m
    · intro n hn
      rcases List.mem_range'.mp hn with ⟨i, hi, rfl⟩
      omega
  · exact chunkWritesOn_append oracle

/-- C3 witness: a three-chunk run with a constant transcription oracle. -/
theorem C3_transcript_order_witness :
    ((3 : Nat) ≤ 999)
    ∧ (((chunkWrites (runFiles 3) (fun _ => "x")).map Prod.fst).Sorted (· ≤ ·)
      ∧ (∀ l₁ l₂ : List (List Char),
          chunkWritesOn (l₁ ++ l₂) (fun _ => "x")
            = chunkWritesOn l₁ (fun _ => "x") ++ chunkWritesOn l₂ (fun _ => "x"))) :=
  ⟨by decide, C3_transcript_order 3 (fun _ => "x") (by decide)⟩

/-- C3 counterexample to the claim as stated: in a 1000-chunk run,
`sorted()` puts `chunk_1000.wav` before `chunk_999.wav` (lexicographic
string order), so the written timestamps are not non-decreasing. -/
theorem C3_claim_counterexample :
    ¬ ((chunkWrites (runFiles 1000) (fun _ => "t")).map Prod.fst).Sorted (· ≤ ·) := by
  intro hS
  have hmem999 : chunkFilename 999 ∈ sortedWavs (runFiles 1000) := by
    rw [sortedWavs, wavFilter_runFiles, List.mem_mergeSort, runFiles]
    exact List.mem_map.mpr ⟨999, List.mem_range'.mpr ⟨998, by omega, by omega⟩, rfl⟩
  have hmem1000 : chunkFilename 1000 ∈ sortedWavs (runFiles 1000) := by
    rw [sortedWavs, wavFilter_runFiles, List.mem_mergeSort, runFiles]
    exact List.mem_map.mpr ⟨1000, List.mem_range'.mpr ⟨999, by omega, by omega⟩, rfl⟩
  have hpw : (sortedWavs (runFiles 1000)).Pairwise (fun a b => nameLE a b = true) := by
    rw [sortedWavs]
    exact @List.sorted_mergeSort (List Char) nameLE
      (fun a b c h1 h2 => nameLE_trans a b c h1 h2) nameLE_total
      (wavFilter (runFiles 1000))
  have hw : (chunkWrites (runFiles 1000) (fun _ => "t")).map Prod.fst
      = (sortedWavs (runFiles 1000)).map (fun f => chunkNumOf f * 30) := by
    rw [chunkWrites, chunkWritesOn_all_nonempty _ _ (fun f _ => by simp),
      List.map_map]
    rfl
  rw [hw] at hS
  have hpair : (sortedWavs (runFiles 1000)).Pairwise
      (fun a b => chunkNumOf a * 30 ≤ chunkNumOf b * 30) :=
    List.pairwise_map.mp hS
  have hand := hpw.and hpair
  have hne : chunkFilename 1000 ≠ chunkFilename 999 := by decide
  have hnum1000 : chunkNumOf (chunkFilename 1000) = 1000 := by decide
  have hnum999 : chunkNumOf (chunkFilename 999) = 999 := by decide
  have hLE : nameLE (chunkFilename 999) (chunkFilename 1000) = false := by decide
  rcases pairwise_or_of_mem hand hmem1000 hmem999 hne with ⟨h1, h2⟩ | ⟨h1, h2⟩
  · rw [hnum1000, hnum999] at h2
    omega
  · rw [hLE] at h1
    exact Bool.false_ne_true h1

/- ### Claim C2 -/

/-- C2 (code evaluation): a 65-second mic recording yields three chunk
files `chunk_001.wav`, `chunk_002.wav`, `chunk_003.wav` (`chunk_count` is
incremented before each save, so the k-th chunk, 0-based, is file number
k+1), and `transcribe_recorded_chunks` stamps them `chunk_num * 30`: the
written timestamps are 30, 60 and 90 seconds — not the claimed 0, 30 and
60, and the final chunk is stamped 90, not 60. -/
theorem C2_chunk_offsets :
    (chunkWrites (runFiles 3) (fun _ => "x")).map Prod.fst = [30, 60, 90]
    ∧ ([30, 60, 90] ≠ ([0, 30, 60] : List Nat)) := by
  constructor
  · rw [chunkWrites, sortedWavs_runFiles 3 (by omega)]
    decide
  · decide

/- ### Claim C6 -/

/-- C6 (amended): `transcribe_audio` performs exactly one API call per
invocation, with no retry and no backoff: when the (only) call fails — a
raised exception or a non-200 status — it returns the empty string at
once, so the chunk yields no transcript line and is skipped, while the
per-file loop continues with the remaining chunks (here: chunk 2 of 5
failing still yields the records for chunks 1, 3, 4, 5). -/
theorem C6_no_retry (api : Nat → ApiOutcome) (hfail : apiFails (api 0) = true) :
    (transcribe_audio_run api).2 = 1
    ∧ (transcribe_audio_run api).1 = ""
    ∧ chunkWrites (runFiles 5) (fun f => if f = chunkFilename 2 then "" else "ok")
        = [(30, "ok"), (90, "ok"), (120, "ok"), (150, "ok")] := by
  refine ⟨rfl, ?_, ?_⟩
  · show transcribe_audio (api 0) = ""
    cases hapi : api 0 with
    | exc => rfl
    | resp status body =>
      rw [hapi] at hfail
      simp only [apiFails, decide_eq_true_eq] at hfail
      simp [transcribe_audio, hfail]
  · rw [chunkWrites, sortedWavs_runFiles 5 (by omega)]
    decide

/-- C6 witness: an always-failing API stream. -/
theorem C6_no_retry_witness :
    (apiFails ((fun _ => ApiOutcome.exc) 0) = true)
    ∧ ((transcribe_audio_run (fun _ => ApiOutcome.exc)).2 = 1
      ∧ (transcribe_audio_run (fun _ => ApiOutcome.exc)).1 = ""
      ∧ chunkWrites (runFiles 5) (fun f => if f = chunkFilename 2 then "" else "ok")
          = [(30, "ok"), (90, "ok"), (120, "ok"), (150, "ok")]) :=
  ⟨rfl, C6_no_retry (fun _ => ApiOutcome.exc) rfl⟩

/-- C6 counterexample to the claim as stated: the first call fails while a
second call would return a usable transcript, yet only one call is made
and the result is the empty string — there is no retry. -/
theorem C6_claim_counterexample :
    (transcribe_audio_run (fun n => if n = 0 then ApiOutcome.exc
        else ApiOutcome.resp 200 (ReplyBody.text "hello"))).2 = 1
    ∧ (transcribe_audio_run (fun n => if n = 0 then ApiOutcome.exc
        else ApiOutcome.resp 200 (ReplyBody.text "hello"))).1 = ""
    ∧ transcribe_audio (ApiOutcome.resp 200 (ReplyBody.text "hello")) = "hello" := by
  refine ⟨rfl, rfl, ?_⟩
  simp [transcribe_audio, show pyStrip "hello" = "hello" from rfl,
    show ¬ ("hello" = "") by decide]

/- ### Claim C10 -/

/-- C10 (confirmed): when the output directory exists, `record_audio_chunk`
deletes every `.wav` file from it before opening the capture stream, so no
`.wav` file — in particular no chunk persisted by a previous mic run —
survives into the new run; a missing directory is created empty. -/
theorem C10_wav_cleanup (fs : List (List Char)) :
    (∀ f ∈ record_start_dir (some fs), ".wav".data.isSuffixOf f = false)
    ∧ (∀ f ∈ fs, ".wav".data.isSuffixOf f = true → f ∉ record_start_dir (some fs))
    ∧ record_start_dir none = [] := by
  refine ⟨?_, ?_, rfl⟩
  · intro f hf
    simp only [record_start_dir, cleanup_old_chunks] at hf
    have h := (List.mem_filter.mp hf).2
    simpa using h
  · intro f hf hw hmem
    simp only [record_start_dir, cleanup_old_chunks] at hmem
    have h := (List.mem_filter.mp hmem).2
    simp [hw] at h

/-- C10 witness: a directory holding one old chunk and one unrelated file:
the old chunk is gone when capture starts. -/
theorem C10_wav_cleanup_witness :
    ("chunk_001.wav".data ∈ ["chunk_001.wav".data, "notes.txt".data])
    ∧ (".wav".data.isSuffixOf "chunk_001.wav".data = true)
    ∧ "chunk_001.wav".data
        ∉ record_start_dir (some ["chunk_001.wav".data, "notes.txt".data]) :=
  ⟨by decide, by decide,
   (C10_wav_cleanup ["chunk_001.wav".data, "notes.txt".data]).2.1
     "chunk_001.wav".data (by decide) (by decide)⟩
